import Mathlib

/-!
Shallow embedding of `libdeflicker.py` (repository thabbott/deflicker).

An image is a list of channel slices; each channel slice is the flattened
list of that channel's pixel attribute values.  Attribute values are
modelled as rationals (the Python code computes with floating point;
the claims are about the exact arithmetic the code expresses).

The Python-2 semantics that matter for the claims are reproduced
explicitly: `w/2` on ints is floor division (also for negative
numerators), list slices `l[i:j]` follow Python slicing with negative
indices, and `scipy.signal.convolve(a, k, mode='same')` is the centred
part of the full discrete convolution, of the same length as `a`.
-/

namespace Deflicker

/-- np.mean of a 1-D array, in exact rational arithmetic.  The mean of an
empty list is taken to be 0; the Python code never takes the mean of an
empty slice on the inputs the claims quantify over. -/
def mean (l : List ℚ) : ℚ := l.sum / (l.length : ℚ)

/-- Python list slicing `l[i:j]`: negative indices count from the end,
out-of-range indices are clamped. -/
def pySlice (l : List ℚ) (i j : ℤ) : List ℚ :=
  let n : ℤ := l.length
  let i2 : ℕ := (if i < 0 then max 0 (n + i) else min i n).toNat
  let j2 : ℕ := (if j < 0 then max 0 (n + j) else min j n).toNat
  (l.take j2).drop i2

/-- Kernel lookup at an integer offset; 0 outside the kernel support. -/
def kernelAt (k : List ℚ) (i : ℤ) : ℚ :=
  if 0 ≤ i then k.getD i.toNat 0 else 0

/-- Full discrete convolution of `a` with kernel `k`, of length
`a.length + k.length - 1`. -/
def convFull (a k : List ℚ) : List ℚ :=
  (List.range (a.length + k.length - 1)).map fun j =>
    ((List.range a.length).map fun m =>
      a.getD m 0 * kernelAt k ((j : ℤ) - (m : ℤ))).sum

/-- `scipy.signal.convolve(a, k, mode='same')`: the centred window of the
full convolution, of length `a.length`, starting at offset
`(k.length - 1) / 2`. -/
def convSame (a k : List ℚ) : List ℚ :=
  ((convFull a k).drop ((k.length - 1) / 2)).take a.length

/-- `squareFilter(sig, w)` from libdeflicker.py: build the kernel
`np.ones(w)`, pad the signal on both ends with `w/2` copies of its first
and last value, convolve in mode 'same', take the Python-2 slice
`[w/2 : -w/2+1]` of the result and divide by the kernel weight `w`.
Python 2 floor division gives slice start `w/2 = ⌊w/2⌋` and slice stop
`-w/2 + 1 = ⌊-w/2⌋ + 1`. -/
def squareFilter (sig : List ℚ) (w : ℕ) : List ℚ :=
  let win : List ℚ := List.replicate w 1
  let sigp : List ℚ :=
    List.replicate (w / 2) (sig.getD 0 0) ++ sig ++
      List.replicate (w / 2) (sig.getD (sig.length - 1) 0)
  (pySlice (convSame sigp win) ((w / 2 : ℕ) : ℤ) (Int.fdiv (-(w : ℤ)) 2 + 1)).map
    fun x => x / win.sum

/-- Error kind raised by `meanRGB` when an explicit channel index is out
of range (numpy raises IndexError on `img[:,:,ii]` with `ii ≥ shape[2]`). -/
inductive Err where
  | invalidIndex
deriving DecidableEq, Repr

/-- Result of `meanRGB`: a scalar for an in-range explicit channel index,
or the vector of per-channel means. -/
inductive MeanResult where
  | scalar (x : ℚ)
  | vector (v : List ℚ)
deriving DecidableEq, Repr

/-- `meanRGB(img, ii)` from libdeflicker.py.  The Python code tests
`if ii < 0` and returns the vector of all channel means (this is how the
default argument `ii = -1` signals "no index given"); otherwise it
returns `np.mean(img[:,:,ii])`, which raises IndexError when
`ii ≥ img.shape[2]`. -/
def meanRGB (img : List (List ℚ)) (ii : ℤ) : Except Err MeanResult :=
  if ii < 0 then .ok (.vector (img.map mean))
  else if ii < img.length then .ok (.scalar (mean (img.getD ii.toNat [])))
  else .error .invalidIndex

/-- `np.isclose(a, b)` with numpy's default tolerances
`rtol = 1e-5`, `atol = 1e-8`: `|a - b| ≤ atol + rtol * |b|`. -/
def isclose (a b : ℚ) : Bool :=
  decide (|a - b| ≤ 1 / 100000000 + |b| / 100000)

/-- One iteration of the while loop in `relaxToMean` on a single channel
slice: `r = rgb[ii] / rgbi[ii]` with `rgbi[ii]` the current channel mean,
then `img[:,:,ii] = np.minimum(1., img[:,:,ii] * r)`. -/
def relaxStep (t : ℚ) (ch : List ℚ) : List ℚ :=
  ch.map fun v => min 1 (v * (t / mean ch))

/-- The while loop `while not np.isclose(rgbi[ii], rgb[ii])` of
`relaxToMean` on one channel slice, run for at most `fuel` iterations.
`rgbi[ii]` always equals the mean of the current channel slice (it is
recomputed from the slice after every iteration), so the loop state is
the slice itself.  The Python loop has no iteration bound; `none` means
the loop is still running after `fuel` iterations, so
`∀ fuel, relaxChannel t fuel ch = none` says the loop never exits. -/
def relaxChannel (t : ℚ) : ℕ → List ℚ → Option (List ℚ)
  | 0, ch => if isclose (mean ch) t then some ch else none
  | fuel + 1, ch =>
    if isclose (mean ch) t then some ch
    else relaxChannel t fuel (relaxStep t ch)

/-- `relaxToMean(img, rgb)` from libdeflicker.py: for each channel index
`ii in range(0, 3)` it runs the relaxation loop on slice `ii` with target
`rgb[ii]`; slices with index ≥ 3 are never touched and entries of `rgb`
past index 2 are never read.  (The local `fac` computed on line 111 of
the source is never used afterwards and is omitted.)  Out-of-range
channel or target accesses, which raise IndexError in Python, are
modelled by `getD` defaults; the claim theorems restrict to images with
at least 3 channel slices and targets with at least 3 entries, where no
such error occurs. -/
def relaxToMean (fuel : ℕ) (img : List (List ℚ)) (rgb : List ℚ) :
    Option (List (List ℚ)) := do
  let c0 ← relaxChannel (rgb.getD 0 0) fuel (img.getD 0 [])
  let c1 ← relaxChannel (rgb.getD 1 0) fuel (img.getD 1 [])
  let c2 ← relaxChannel (rgb.getD 2 0) fuel (img.getD 2 [])
  some (((img.set 0 c0).set 1 c1).set 2 c2)

/-- `np.round`: round to nearest integer, ties to even. -/
def roundHalfEven (q : ℚ) : ℤ :=
  let f := ⌊q⌋
  let r := q - f
  if r < 1 / 2 then f
  else if 1 / 2 < r then f + 1
  else if 2 ∣ f then f else f + 1

/-- A numpy integer dtype, described by its bit width and signedness. -/
structure IntType where
  bits : ℕ
  signed : Bool
deriving DecidableEq, Repr

/-- `np.iinfo(t).max`: the largest value representable by the dtype. -/
def IntType.maxInt (t : IntType) : ℤ :=
  if t.signed then 2 ^ (t.bits - 1) - 1 else 2 ^ t.bits - 1

/-- `.astype(t)` on an integer value: wrap modulo `2 ^ bits`, interpreting
the result in the signed range when the dtype is signed. -/
def IntType.wrap (t : IntType) (z : ℤ) : ℤ :=
  let m := z % (2 ^ t.bits : ℤ)
  if t.signed ∧ (2 ^ (t.bits - 1) : ℤ) ≤ m then m - 2 ^ t.bits else m

/-- `toIntColor(img, t)` from libdeflicker.py:
`np.round(img * np.iinfo(t).max).astype(t)`, elementwise. -/
def toIntColor (img : List (List ℚ)) (t : IntType) : List (List ℤ) :=
  img.map fun ch => ch.map fun v => t.wrap (roundHalfEven (v * t.maxInt))

/-- The kernel built by `squareFilter` is a list of ones, so a kernel
lookup is 1 inside the support and 0 outside it. -/
theorem kernelAt_replicate_one (n : ℕ) (i : ℤ) :
    kernelAt (List.replicate n 1) i = if 0 ≤ i ∧ i < n then 1 else 0 := by
  unfold kernelAt
  by_cases h1 : 0 ≤ i
  · by_cases h2 : i < n
    · have h : i.toNat < (List.replicate n (1 : ℚ)).length := by simp; omega
      rw [if_pos h1, List.getD_eq_getElem _ _ h, List.getElem_replicate,
        if_pos ⟨h1, h2⟩]
    · rw [if_pos h1, List.getD_eq_default, if_neg (by tauto)]
      simp; omega
  · rw [if_neg h1, if_neg (by tauto)]

/-- Python-2 slice stop `-w/2 + 1` evaluated at width 1. -/
theorem pyStop_one : Int.fdiv (-(1 : ℤ)) 2 + 1 = 0 := by decide

/-- Python-2 slice stop `-w/2 + 1` evaluated at width 2. -/
theorem pyStop_two : Int.fdiv (-(2 : ℤ)) 2 + 1 = 0 := by decide

/-- Python-2 slice stop `-w/2 + 1` evaluated at width 3. -/
theorem pyStop_three : Int.fdiv (-(3 : ℤ)) 2 + 1 = -1 := by decide

/-- Python-2 slice stop `-w/2 + 1` evaluated at width 4. -/
theorem pyStop_four : Int.fdiv (-(4 : ℤ)) 2 + 1 = -1 := by decide

/-- C1: the claim says `squareFilter` preserves the length of its input for
every width `w ≥ 1`.  The code violates this: for the length-5 signal
`[0.1, 0.5, 0.9, 0.5, 0.1]` and width `4`, the Python-2 slice
`[w/2 : -w/2+1]` removes one element too few and the result has length 6,
not 5.  (For `w = 1` and `w = 2` the slice is empty; only odd `w ≥ 3`
preserves the length.) -/
theorem squareFilter_even_width_breaks_length :
    (squareFilter [1/10, 1/2, 9/10, 1/2, 1/10] 4).length = 6 := by
  norm_num [squareFilter, convSame, convFull, pySlice, mean, List.range_succ,
    kernelAt_replicate_one, pyStop_four]
  simp [Int.toNat_ofNat]

/-- C5: the claim says `squareFilter` with width 1 is the identity.  The
code violates this: for width 1 the Python-2 slice is `[0 : 0]`, so
`squareFilter [0.1, 0.2] 1` is the empty sequence, not the input. -/
theorem squareFilter_width_one_empty :
    squareFilter [1/10, 1/5] 1 = [] := by
  norm_num [squareFilter, convSame, convFull, pySlice, mean, List.range_succ,
    kernelAt_replicate_one, pyStop_one]

/-- C6: the claim says a constant signal is a fixed point of
`squareFilter` for every width `w ≥ 1`.  The code violates this at even
widths: for the constant signal `[0.5, 0.5, 0.5]` and width 2 the
Python-2 slice is `[1 : 0]`, so the result is the empty sequence, not the
input. -/
theorem squareFilter_const_even_width_empty :
    squareFilter [1/2, 1/2, 1/2] 2 = [] := by
  norm_num [squareFilter, convSame, convFull, pySlice, mean, List.range_succ,
    kernelAt_replicate_one, pyStop_two]

/-- C7: for the signal `[0.1, 0.5, 0.9, 0.5, 0.1]` and width 3,
`squareFilter` returns the edge-replicated box average
`[7/30, 1/2, 19/30, 1/2, 7/30]`; in particular element 0 is
`(0.1 + 0.1 + 0.5)/3 = 7/30 = 0.2333…` and element 2 is
`(0.5 + 0.9 + 0.5)/3 = 19/30 = 0.6333…`. -/
theorem squareFilter_example_width_three :
    squareFilter [1/10, 1/2, 9/10, 1/2, 1/10] 3 =
      [(1/10 + 1/10 + 1/2) / 3, 1/2, (1/2 + 9/10 + 1/2) / 3, 1/2, 7/30] := by
  norm_num [squareFilter, convSame, convFull, pySlice, mean, List.range_succ,
    kernelAt_replicate_one, pyStop_three]
  simp [Int.toNat_ofNat]

/-- Mean of a list of nonnegative values is nonnegative (also for the
empty list, whose mean is 0). -/
theorem mean_nonneg {ch : List ℚ} (h : ∀ v ∈ ch, 0 ≤ v) : 0 ≤ mean ch :=
  div_nonneg (List.sum_nonneg h) (Nat.cast_nonneg _)

/-- One relaxation iteration keeps every attribute value inside [0, 1]
whenever the target is nonnegative: the scale ratio `t / mean ch` is then
nonnegative, and `np.minimum(1., ·)` caps the result at 1. -/
theorem relaxStep_range {t : ℚ} {ch : List ℚ} (ht : 0 ≤ t)
    (h : ∀ v ∈ ch, 0 ≤ v ∧ v ≤ 1) : ∀ v ∈ relaxStep t ch, 0 ≤ v ∧ v ≤ 1 := by
  intro v hv
  simp only [relaxStep, List.mem_map] at hv
  obtain ⟨u, hu, rfl⟩ := hv
  have h0 : 0 ≤ mean ch := mean_nonneg fun v hv => (h v hv).1
  exact ⟨le_min zero_le_one (mul_nonneg (h u hu).1 (div_nonneg ht h0)),
    min_le_left _ _⟩

/-- The relaxation loop keeps every attribute value inside [0, 1] when the
target is nonnegative. -/
theorem relaxChannel_range {t : ℚ} {fuel : ℕ} {ch ch2 : List ℚ} (ht : 0 ≤ t)
    (h : ∀ v ∈ ch, 0 ≤ v ∧ v ≤ 1) (hc : relaxChannel t fuel ch = some ch2) :
    ∀ v ∈ ch2, 0 ≤ v ∧ v ≤ 1 := by
  induction fuel generalizing ch with
  | zero =>
    unfold relaxChannel at hc
    split at hc
    · cases hc; exact h
    · cases hc
  | succ n ih =>
    unfold relaxChannel at hc
    split at hc
    · cases hc; exact h
    · exact ih (relaxStep_range ht h) hc

/-- When the relaxation loop exits, the exit condition holds: the mean of
the produced channel slice is np.isclose to the target. -/
theorem relaxChannel_converged {t : ℚ} {fuel : ℕ} {ch ch2 : List ℚ}
    (hc : relaxChannel t fuel ch = some ch2) : isclose (mean ch2) t = true := by
  induction fuel generalizing ch with
  | zero =>
    unfold relaxChannel at hc
    split at hc
    · cases hc; assumption
    · cases hc
  | succ n ih =>
    unfold relaxChannel at hc
    split at hc
    · cases hc; assumption
    · exact ih hc

/-- A channel slice saturated at 1.0 with target mean 2.0 is a fixed point
of the loop body that never satisfies the exit condition, so the while
loop of `relaxToMean` runs forever on it. -/
theorem relaxChannel_stuck_saturated : ∀ fuel : ℕ, relaxChannel 2 fuel [1] = none := by
  intro fuel
  induction fuel with
  | zero =>
    unfold relaxChannel
    rw [if_neg]
    simp only [isclose, mean]
    norm_num
  | succ n ih =>
    unfold relaxChannel
    rw [if_neg]
    · have hstep : relaxStep 2 [1] = [1] := by
        simp only [relaxStep, mean]
        norm_num
      rw [hstep]; exact ih
    · simp only [isclose, mean]
      norm_num

/-- Unfolding of the monadic definition of `relaxToMean`. -/
theorem relaxToMean_eq (fuel : ℕ) (img : List (List ℚ)) (rgb : List ℚ) :
    relaxToMean fuel img rgb =
      (relaxChannel (rgb.getD 0 0) fuel (img.getD 0 [])).bind fun c0 =>
      (relaxChannel (rgb.getD 1 0) fuel (img.getD 1 [])).bind fun c1 =>
      (relaxChannel (rgb.getD 2 0) fuel (img.getD 2 [])).bind fun c2 =>
      some (((img.set 0 c0).set 1 c1).set 2 c2) := rfl

/-- A successful run of `relaxToMean` decomposes into three successful
channel relaxations. -/
theorem relaxToMean_some {fuel : ℕ} {img img2 : List (List ℚ)} {rgb : List ℚ}
    (h : relaxToMean fuel img rgb = some img2) :
    ∃ c0 c1 c2, relaxChannel (rgb.getD 0 0) fuel (img.getD 0 []) = some c0 ∧
      relaxChannel (rgb.getD 1 0) fuel (img.getD 1 []) = some c1 ∧
      relaxChannel (rgb.getD 2 0) fuel (img.getD 2 []) = some c2 ∧
      img2 = ((img.set 0 c0).set 1 c1).set 2 c2 := by
  rw [relaxToMean_eq] at h
  cases h0 : relaxChannel (rgb.getD 0 0) fuel (img.getD 0 []) with
  | none => rw [h0] at h; simp at h
  | some c0 =>
    rw [h0] at h
    cases h1 : relaxChannel (rgb.getD 1 0) fuel (img.getD 1 []) with
    | none => rw [h1] at h; simp at h
    | some c1 =>
      rw [h1] at h
      cases h2 : relaxChannel (rgb.getD 2 0) fuel (img.getD 2 []) with
      | none => rw [h2] at h; simp at h
      | some c2 =>
        rw [h2] at h
        simp at h
        exact ⟨c0, c1, c2, rfl, rfl, rfl, h.symm⟩

/-- Reading back the three channel slices written by `relaxToMean`. -/
theorem getD_set_chain (l : List (List ℚ)) (c0 c1 c2 : List ℚ) (h : 3 ≤ l.length) :
    (((l.set 0 c0).set 1 c1).set 2 c2).getD 0 [] = c0 ∧
    (((l.set 0 c0).set 1 c1).set 2 c2).getD 1 [] = c1 ∧
    (((l.set 0 c0).set 1 c1).set 2 c2).getD 2 [] = c2 := by
  have h0 : 0 < l.length := by omega
  have h1 : 1 < l.length := by omega
  have h2 : 2 < l.length := by omega
  refine ⟨?_, ?_, ?_⟩ <;>
    simp [List.getD_eq_getElem?_getD, List.getElem?_set, h0, h1, h2]

/-- Unfolding of the boolean `isclose` into the numpy tolerance bound. -/
theorem isclose_spec {a b : ℚ} (h : isclose a b = true) :
    |a - b| ≤ 1 / 100000000 + |b| / 100000 := by
  simpa [isclose] using h

/-- In-range `getD` is a member of the list (channel-slice version). -/
theorem getD_mem_of_lt {l : List (List ℚ)} {i : ℕ} (h : i < l.length) :
    l.getD i [] ∈ l := by
  rw [List.getD_eq_getElem _ _ h]
  exact List.getElem_mem _

/-- In-range `getD` is a member of the list (target-vector version). -/
theorem getD_mem_rat {l : List ℚ} {i : ℕ} (h : i < l.length) : l.getD i 0 ∈ l := by
  rw [List.getD_eq_getElem _ _ h]
  exact List.getElem_mem _

/-- C2: the claim says the relaxation loop is bounded and reports
ConvergenceFailure when the target mean is unreachable.  The code has no
iteration guard and no failure report: on the 3-channel one-pixel image
with all attributes saturated at 1.0 and unreachable target means
[2, 2, 2], the while loop never exits — after any number `fuel` of
iterations it is still running (`none`), for every `fuel`. -/
theorem relaxToMean_never_terminates (fuel : ℕ) :
    relaxToMean fuel [[1], [1], [1]] [2, 2, 2] = none := by
  simp [relaxToMean, relaxChannel_stuck_saturated]

/-- Concrete convergent run used to witness the C3 theorem: one iteration
rescales the single pixel 0.25 by ratio 2 to reach the target mean 0.5. -/
theorem relaxConvergeHalf :
    relaxToMean 1 [[1/4], [1/4], [1/4]] [1/2, 1/2, 1/2] = some [[1/2], [1/2], [1/2]] := by
  norm_num [relaxToMean_eq, relaxChannel, relaxStep, isclose, mean, min_def]
  norm_num [abs_of_nonneg, abs_of_nonpos]

/-- Concrete already-converged run on a 4-channel image used by the C3
counterexample and the C10 witness. -/
theorem relaxConvergeFourChannels :
    relaxToMean 0 [[1/2], [1/2], [1/2], [3/4]] [1/2, 1/2, 1/2, 9/10] =
      some [[1/2], [1/2], [1/2], [3/4]] := by
  norm_num [relaxToMean_eq, relaxChannel, relaxStep, isclose, mean, min_def]
  norm_num [abs_of_nonneg, abs_of_nonpos]

/-- C3 counterexample: the claim quantifies over every image, but
`relaxToMean` only processes channel slices 0, 1, 2, so on a 4-channel
image (all values in [0, 1], all targets in [0, 1]) it can terminate
with the fourth channel mean 0.75 nowhere near its target 0.9: the
difference 0.15 exceeds the np.isclose tolerance. -/
theorem relaxToMean_fourth_channel_counterexample :
    relaxToMean 0 [[1/2], [1/2], [1/2], [3/4]] [1/2, 1/2, 1/2, 9/10] =
      some [[1/2], [1/2], [1/2], [3/4]] ∧
    ¬ |mean (([[(1 : ℚ)/2], [1/2], [1/2], [3/4]]).getD 3 []) -
        ([(1 : ℚ)/2, 1/2, 1/2, 9/10]).getD 3 0| ≤
        1 / 100000000 + |([(1 : ℚ)/2, 1/2, 1/2, 9/10]).getD 3 0| / 100000 := by
  refine ⟨relaxConvergeFourChannels, ?_⟩
  norm_num [mean, abs_of_nonneg]

/-- C3 as amended: for a 3-channel image with attribute values in [0, 1] and target
means in [0, 1], whenever `relaxToMean` converges (terminates within any
iteration budget), the mean of every channel of the result is within the
loop's np.isclose tolerance `1e-8 + 1e-5 * |target|` of its target, and
in particular within 1/10000 of it. -/
theorem relaxToMean_reaches_target
    (img : List (List ℚ)) (rgb : List ℚ) (fuel : ℕ) (img2 : List (List ℚ))
    (c : ℕ) (hc : c < 3) (himg : img.length = 3) (hrgb : rgb.length = 3)
    (hvals : ∀ ch ∈ img, ∀ v ∈ ch, 0 ≤ v ∧ v ≤ 1)
    (htgt : ∀ t ∈ rgb, 0 ≤ t ∧ t ≤ 1)
    (hconv : relaxToMean fuel img rgb = some img2) :
    |mean (img2.getD c []) - rgb.getD c 0| ≤
        1 / 100000000 + |rgb.getD c 0| / 100000 ∧
    |mean (img2.getD c []) - rgb.getD c 0| < 1 / 10000 := by
  obtain ⟨c0, c1, c2, h0, h1, h2, rfl⟩ := relaxToMean_some hconv
  obtain ⟨g0, g1, g2⟩ := getD_set_chain img c0 c1 c2 (by omega)
  have htmem : ∀ i < 3, rgb.getD i 0 ∈ rgb := by
    intro i hi
    rw [List.getD_eq_getElem _ _ (by omega)]
    exact List.getElem_mem _
  have key : ∀ i < 3,
      isclose (mean ((((img.set 0 c0).set 1 c1).set 2 c2).getD i []))
        (rgb.getD i 0) = true := by
    intro i hi
    interval_cases i
    · rw [g0]; exact relaxChannel_converged h0
    · rw [g1]; exact relaxChannel_converged h1
    · rw [g2]; exact relaxChannel_converged h2
  have hcl := isclose_spec (key c hc)
  refine ⟨hcl, ?_⟩
  have ht := htgt _ (htmem c hc)
  have habs : |rgb.getD c 0| ≤ 1 := abs_le.mpr ⟨by linarith [ht.1], ht.2⟩
  linarith

/-- Witness for the C3 theorem at a concrete convergent run. -/
theorem relaxToMean_reaches_target_witness :
    |mean (([[(1 : ℚ) / 2], [1 / 2], [1 / 2]]).getD 0 []) -
        ([(1 : ℚ) / 2, 1 / 2, 1 / 2]).getD 0 0| < 1 / 10000 :=
  (relaxToMean_reaches_target [[1 / 4], [1 / 4], [1 / 4]] [1 / 2, 1 / 2, 1 / 2] 1
    [[1 / 2], [1 / 2], [1 / 2]] 0 (by norm_num) (by norm_num) (by norm_num)
    (by norm_num) (by norm_num) relaxConvergeHalf).2

/-- C4 counterexample: the claim quantifies over every target mean vector,
but a negative target makes the ratio `r = target / mean` negative, and
`np.minimum(1., img * r)` has no lower clamp: starting from attribute
values 0.5 (inside [0, 1]) with targets -1, the relaxation terminates
with every attribute equal to -1 < 0. -/
theorem relaxToMean_negative_target_counterexample :
    relaxToMean 1 [[1 / 2], [1 / 2], [1 / 2]] [-1, -1, -1] =
      some [[-1], [-1], [-1]] ∧ (-1 : ℚ) < 0 := by
  refine ⟨?_, by norm_num⟩
  norm_num [relaxToMean_eq, relaxChannel, relaxStep, isclose, mean, min_def]
  norm_num [abs_of_nonneg, abs_of_nonpos]

/-- C4 as amended: for images (with the three processed channel slices
present) whose attribute values lie in [0, 1] and any target mean vector
with nonnegative entries, `relaxToMean` never produces a value outside
[0, 1]; moreover a single loop iteration (`relaxStep`) preserves the
bound, so it holds at every iteration. -/
theorem relaxToMean_preserves_range
    (img : List (List ℚ)) (rgb : List ℚ) (fuel : ℕ) (img2 : List (List ℚ))
    (himg : 3 ≤ img.length) (hrgb : 3 ≤ rgb.length)
    (hvals : ∀ ch ∈ img, ∀ v ∈ ch, 0 ≤ v ∧ v ≤ 1)
    (htgt : ∀ t ∈ rgb, 0 ≤ t)
    (hconv : relaxToMean fuel img rgb = some img2) :
    (∀ ch ∈ img2, ∀ v ∈ ch, 0 ≤ v ∧ v ≤ 1) ∧
    ∀ t : ℚ, ∀ ch : List ℚ, 0 ≤ t → (∀ v ∈ ch, 0 ≤ v ∧ v ≤ 1) →
      ∀ v ∈ relaxStep t ch, 0 ≤ v ∧ v ≤ 1 := by
  obtain ⟨c0, c1, c2, h0, h1, h2, rfl⟩ := relaxToMean_some hconv
  have hch : ∀ i, i < 3 → ∀ v ∈ img.getD i [], 0 ≤ v ∧ v ≤ 1 :=
    fun i hi => hvals _ (getD_mem_of_lt (by omega))
  have htg : ∀ i, i < 3 → (0 : ℚ) ≤ rgb.getD i 0 :=
    fun i hi => htgt _ (getD_mem_rat (by omega))
  refine ⟨?_, fun t ch ht hv => relaxStep_range ht hv⟩
  intro ch hchm
  rcases List.mem_or_eq_of_mem_set hchm with hchm | rfl
  · rcases List.mem_or_eq_of_mem_set hchm with hchm | rfl
    · rcases List.mem_or_eq_of_mem_set hchm with hchm | rfl
      · exact hvals _ hchm
      · exact relaxChannel_range (htg 0 (by omega)) (hch 0 (by omega)) h0
    · exact relaxChannel_range (htg 1 (by omega)) (hch 1 (by omega)) h1
  · exact relaxChannel_range (htg 2 (by omega)) (hch 2 (by omega)) h2

/-- Concrete convergent run used to witness the C4 theorem. -/
theorem relaxConvergeFourFifths :
    relaxToMean 1 [[1/5], [1/5], [1/5]] [4/5, 4/5, 4/5] = some [[4/5], [4/5], [4/5]] := by
  norm_num [relaxToMean_eq, relaxChannel, relaxStep, isclose, mean, min_def]
  norm_num [abs_of_nonneg, abs_of_nonpos]

/-- Witness for the amended C4 theorem at a concrete convergent run. -/
theorem relaxToMean_preserves_range_witness :
    0 ≤ (4 : ℚ) / 5 ∧ (4 : ℚ) / 5 ≤ 1 :=
  (relaxToMean_preserves_range [[1 / 5], [1 / 5], [1 / 5]] [4 / 5, 4 / 5, 4 / 5] 1
    [[4 / 5], [4 / 5], [4 / 5]] (by norm_num) (by norm_num) (by norm_num)
    (by norm_num) relaxConvergeFourFifths).1 [4 / 5] (by norm_num) (4 / 5) (by norm_num)

/-- C10: `relaxToMean` adjusts only channel slices 0, 1, 2 (the loop is
`for ii in range(0, 3)`): every slice with index ≥ 3 of the produced
image equals the corresponding input slice, the number of slices is
unchanged, and replacing the target vector by any vector that agrees on
its first three entries gives the same result, so entries beyond index 2
are ignored. -/
theorem relaxToMean_frame
    (img : List (List ℚ)) (rgb rgb2 : List ℚ) (fuel : ℕ) (img2 : List (List ℚ))
    (himg : 3 ≤ img.length)
    (hagree : ∀ i < 3, rgb.getD i 0 = rgb2.getD i 0)
    (hconv : relaxToMean fuel img rgb = some img2) :
    (∀ i, 3 ≤ i → img2.getD i [] = img.getD i []) ∧
    img2.length = img.length ∧
    relaxToMean fuel img rgb2 = some img2 := by
  obtain ⟨c0, c1, c2, h0, h1, h2, rfl⟩ := relaxToMean_some hconv
  refine ⟨?_, by simp [List.length_set], ?_⟩
  · intro i hi
    rw [List.getD_eq_getElem?_getD, List.getD_eq_getElem?_getD,
      List.getElem?_set_ne (by omega : (2 : ℕ) ≠ i),
      List.getElem?_set_ne (by omega : (1 : ℕ) ≠ i),
      List.getElem?_set_ne (by omega : (0 : ℕ) ≠ i)]
  · rw [relaxToMean_eq, ← hagree 0 (by omega), ← hagree 1 (by omega),
      ← hagree 2 (by omega), h0, h1, h2]
    rfl

/-- Witness for the C10 theorem: on a 4-channel image, changing the fourth
target entry from 0.9 to 0.1 does not change the result. -/
theorem relaxToMean_frame_witness :
    relaxToMean 0 [[(1 : ℚ) / 2], [1 / 2], [1 / 2], [3 / 4]]
      [1 / 2, 1 / 2, 1 / 2, 1 / 10] =
      some [[(1 : ℚ) / 2], [1 / 2], [1 / 2], [3 / 4]] :=
  (relaxToMean_frame [[(1 : ℚ) / 2], [1 / 2], [1 / 2], [3 / 4]]
    [1 / 2, 1 / 2, 1 / 2, 9 / 10] [1 / 2, 1 / 2, 1 / 2, 1 / 10] 0
    [[(1 : ℚ) / 2], [1 / 2], [1 / 2], [3 / 4]] (by norm_num)
    (by intro i hi; interval_cases i <;> rfl) relaxConvergeFourChannels).2.2

/-- C8 counterexample: the claim says `meanRGB` fails with InvalidIndex
whenever the explicit channel index is outside [0, numChannels), but the
code tests `if ii < 0` first and returns the vector of all channel means
for every negative index: at index -2 on a 1-channel image it returns
`ok (vector [0.5])`, not an error. -/
theorem meanRGB_negative_index_no_error :
    meanRGB [[1 / 2]] (-2) = Except.ok (MeanResult.vector [1 / 2]) ∧
    meanRGB [[1 / 2]] (-2) ≠ Except.error Err.invalidIndex := by
  constructor
  · norm_num [meanRGB, mean]
  · simp [meanRGB]

/-- C8 as amended: `meanRGB` fails with InvalidIndex exactly when the
index is nonnegative and ≥ the number of channel slices; a negative
index is treated as "no index given" and yields the vector of all
channel means; an in-range index yields the arithmetic mean
(sum divided by count) of that channel slice. -/
theorem meanRGB_spec (img : List (List ℚ)) (ii : ℤ) :
    (meanRGB img ii = Except.error Err.invalidIndex ↔
      0 ≤ ii ∧ (img.length : ℤ) ≤ ii) ∧
    meanRGB img ii =
      if ii < 0 then
        Except.ok (MeanResult.vector (img.map fun ch => ch.sum / (ch.length : ℚ)))
      else if ii < (img.length : ℤ) then
        Except.ok (MeanResult.scalar
          ((img.getD ii.toNat []).sum / ((img.getD ii.toNat []).length : ℚ)))
      else Except.error Err.invalidIndex := by
  constructor
  · unfold meanRGB
    split_ifs with h1 h2 <;> simp <;> omega
  · rfl

/-- Fractional part of the floor decomposition lies in [0, 1). -/
theorem floor_frac_bounds (q : ℚ) : 0 ≤ q - ⌊q⌋ ∧ q - ⌊q⌋ < 1 :=
  ⟨sub_nonneg.mpr (Int.floor_le q), by linarith [Int.lt_floor_add_one q]⟩

/-- `np.round` is a round-to-nearest: it differs from its argument by at
most 1/2. -/
theorem roundHalfEven_nearest (q : ℚ) : |(roundHalfEven q : ℚ) - q| ≤ 1 / 2 := by
  obtain ⟨hr0, hr1⟩ := floor_frac_bounds q
  simp only [roundHalfEven]
  split_ifs with h1 h2 h3 <;> rw [abs_le] <;> push_cast <;> constructor <;> linarith

/-- Rounding a nonnegative rational gives a nonnegative integer. -/
theorem roundHalfEven_nonneg {q : ℚ} (h : 0 ≤ q) : 0 ≤ roundHalfEven q := by
  have hf : (0 : ℤ) ≤ ⌊q⌋ := Int.floor_nonneg.mpr h
  simp only [roundHalfEven]
  split_ifs <;> omega

/-- Rounding a rational bounded by an integer stays bounded by it. -/
theorem roundHalfEven_le_of_le {q : ℚ} {M : ℤ} (h : q ≤ (M : ℚ)) :
    roundHalfEven q ≤ M := by
  obtain ⟨hr0, hr1⟩ := floor_frac_bounds q
  have hfM : ⌊q⌋ ≤ M := by
    have := Int.floor_le_floor h
    simpa using this
  have hkey : ¬q - ⌊q⌋ < 1 / 2 → ⌊q⌋ + 1 ≤ M := by
    intro hne
    rcases eq_or_lt_of_le hfM with heq | hlt
    · exfalso
      apply hne
      have : q - (⌊q⌋ : ℚ) ≤ 0 := by
        rw [heq]; push_cast; linarith
      linarith
    · omega
  simp only [roundHalfEven]
  split_ifs with h1 h2 h3
  · exact hfM
  · exact hkey (by linarith)
  · exact hfM
  · exact hkey h1

/-- `.astype(t)` is the identity on values that fit in the dtype. -/
theorem wrap_eq_self {t : IntType} {z : ℤ} (hb : 1 ≤ t.bits) (h0 : 0 ≤ z)
    (h1 : z ≤ t.maxInt) : t.wrap z = z := by
  have hp : (0 : ℤ) < 2 ^ (t.bits - 1) := pow_pos (by norm_num) _
  have hpow : (2 : ℤ) ^ (t.bits - 1) ≤ 2 ^ t.bits :=
    pow_le_pow_right₀ (by norm_num) (by omega)
  have hM : t.maxInt < 2 ^ t.bits := by
    unfold IntType.maxInt
    split_ifs <;> omega
  have hlt : z < 2 ^ t.bits := by omega
  unfold IntType.wrap
  rw [Int.emod_eq_of_lt h0 hlt, if_neg]
  rintro ⟨hs, hge⟩
  have : t.maxInt = 2 ^ (t.bits - 1) - 1 := by unfold IntType.maxInt; rw [if_pos hs]
  omega

/-- C9: for an image with attribute values in [0, 1] and any integer
dtype with at least one bit, `toIntColor` returns, for each attribute
value v, exactly `round(v * maxInt)` (the astype wrap is the identity
because the rounded value fits in the dtype), and the rounding is
round-to-nearest: it differs from `v * maxInt` by at most 1/2. -/
theorem toIntColor_spec (img : List (List ℚ)) (t : IntType) (hb : 1 ≤ t.bits)
    (hvals : ∀ ch ∈ img, ∀ v ∈ ch, 0 ≤ v ∧ v ≤ 1) :
    toIntColor img t =
      (img.map fun ch => ch.map fun v => roundHalfEven (v * t.maxInt)) ∧
    ∀ q : ℚ, |(roundHalfEven q : ℚ) - q| ≤ 1 / 2 := by
  refine ⟨?_, roundHalfEven_nearest⟩
  unfold toIntColor
  apply List.map_congr_left
  intro ch hch
  apply List.map_congr_left
  intro v hv
  obtain ⟨hv0, hv1⟩ := hvals ch hch v hv
  have hM0 : (0 : ℤ) ≤ t.maxInt := by
    have hp : (0 : ℤ) < 2 ^ (t.bits - 1) := pow_pos (by norm_num) _
    have hp2 : (0 : ℤ) < 2 ^ t.bits := pow_pos (by norm_num) _
    unfold IntType.maxInt
    split_ifs <;> omega
  have hq0 : 0 ≤ v * (t.maxInt : ℚ) := mul_nonneg hv0 (by exact_mod_cast hM0)
  have hq1 : v * (t.maxInt : ℚ) ≤ (t.maxInt : ℚ) :=
    mul_le_of_le_one_left (by exact_mod_cast hM0) hv1
  exact wrap_eq_self hb (roundHalfEven_nonneg hq0) (roundHalfEven_le_of_le hq1)

/-- Witness for the C9 theorem on a one-pixel image and the uint8 dtype. -/
theorem toIntColor_spec_witness :
    toIntColor [[(1 : ℚ) / 2]] ⟨8, false⟩ =
      ([[(1 : ℚ) / 2]].map fun ch => ch.map fun v =>
        roundHalfEven (v * IntType.maxInt ⟨8, false⟩)) :=
  (toIntColor_spec [[(1 : ℚ) / 2]] ⟨8, false⟩ (by norm_num) (by norm_num)).1

end Deflicker
